import Mathlib

/-!
# Verification of `stack_pool` (src/exam/stack_pool.hpp)

A shallow embedding of the C++ class `stack_pool<T, N>` with `N = std::size_t`
modelled as `Nat`.  The pool owns a growable vector of nodes `{value, next}`;
indices `1 .. pool.size()` are node handles, `0` (aka `end()`) is the sentinel
for the empty stack and the empty free list.  `node(x)` is `pool[x-1]`; for
`x = 0` the C++ subtraction wraps around to `SIZE_MAX`, an out-of-range vector
access (undefined behaviour), which the embedding models as reading a default
node / writing nothing (and, in the checked variant `popE`, as an
`invalidIndex` error).
-/

/-- `node_t` of `stack_pool`: a value together with the index of the next
node (`0` = end of list). -/
structure node_t (T : Type) where
  value : T
  next : Nat
  deriving Repr, DecidableEq

instance (T : Type) [Inhabited T] : Inhabited (node_t T) := ⟨⟨default, 0⟩⟩

/-- The `stack_pool` state: the vector of nodes (`pool`), the head of the
free list (`free_nodes`, `0` when empty) and the vector's capacity (`cap`),
modelling `std::vector::capacity()`. -/
structure stack_pool (T : Type) where
  pool : List (node_t T)
  free_nodes : Nat
  cap : Nat
  deriving Repr, DecidableEq

namespace stack_pool

variable {T : Type} [Inhabited T]

/-- `new_stack()` returns `end()`, i.e. `0`; it has no side effect. -/
def new_stack (_s : stack_pool T) : Nat := 0

/-- `capacity()` returns `pool.capacity()`. -/
def capacity (s : stack_pool T) : Nat := s.cap

/-- `reserve(n)` calls `std::vector::reserve(n)`: capacity becomes at least
`n` and never shrinks. -/
def reserve (s : stack_pool T) (n : Nat) : stack_pool T :=
  { s with cap := max s.cap n }

/-- `empty(x)`: a stack is empty iff its handle is `end() = 0`. -/
def empty (_s : stack_pool T) (x : Nat) : Bool := x == 0

/-- `node(x)` is `pool[x-1]`.  `x = 0` wraps to an out-of-range slot in the
C++ code (undefined behaviour); the embedding returns a default node there,
as it does for any out-of-range index. -/
def node (s : stack_pool T) (x : Nat) : node_t T :=
  if x = 0 then default else (s.pool.get? (x - 1)).getD default

/-- `value(x) = node(x).value`. -/
def value (s : stack_pool T) (x : Nat) : T := (s.node x).value

/-- `next(x) = node(x).next`. -/
def next (s : stack_pool T) (x : Nat) : Nat := (s.node x).next

/-- The assignment `value(x) = v`: overwrite the value field of `pool[x-1]`.
Out-of-range writes (including the wrapped `x = 0`) change nothing, modelling
that the C++ code never reaches them on valid input. -/
def setValue (s : stack_pool T) (x : Nat) (v : T) : stack_pool T :=
  if x = 0 then s
  else { s with pool := s.pool.set (x - 1) ⟨v, (s.node x).next⟩ }

/-- The assignment `next(x) = n`: overwrite the next field of `pool[x-1]`. -/
def setNext (s : stack_pool T) (x : Nat) (n : Nat) : stack_pool T :=
  if x = 0 then s
  else { s with pool := s.pool.set (x - 1) ⟨(s.node x).value, n⟩ }

/-- `_push(val, head)` (the single implementation behind both `push`
overloads): with an empty free list, `push_back` a fresh node `{val, head}`
and return the new size; otherwise recycle the head of the free list.
`push_back` reallocates exactly when the vector is full; the new capacity
models the usual doubling growth. -/
def push (s : stack_pool T) (val : T) (head : Nat) : stack_pool T × Nat :=
  if s.free_nodes = 0 then
    ({ s with
        pool := s.pool ++ [⟨val, head⟩],
        cap := if s.pool.length + 1 ≤ s.cap then s.cap
               else max (2 * s.cap) (s.pool.length + 1) },
     s.pool.length + 1)
  else
    let tmp := s.free_nodes
    let s1 := { s with free_nodes := s.next s.free_nodes }
    let s2 := s1.setValue tmp val
    let s3 := s2.setNext tmp head
    (s3, tmp)

/-- `pop(x)`: detach the head node `x`, thread it onto the free list and
return its former `next`.  Meaningful only for a non-sentinel, in-range `x`
(for `x = 0` the C++ code is undefined behaviour; see `popE`). -/
def pop (s : stack_pool T) (x : Nat) : stack_pool T × Nat :=
  let tmp := s.next x
  let s1 := s.setNext x s.free_nodes
  ({ s1 with free_nodes := x }, tmp)

/-- The `while (x != end()) { x = pop(x); }` loop of `free_stack`, with
explicit fuel (the C++ loop terminates for every well-formed stack, whose
length is at most the pool's size). -/
def free_stack_fuel : Nat → stack_pool T → Nat → stack_pool T × Nat
  | 0, s, x => (s, x)
  | fuel + 1, s, x =>
      if x = 0 then (s, x)
      else
        let p := s.pop x
        free_stack_fuel fuel p.1 p.2

/-- `free_stack(x)`: pop every node of the stack headed by `x` until the
handle is `end()`, returning the final handle. -/
def free_stack (s : stack_pool T) (x : Nat) : stack_pool T × Nat :=
  free_stack_fuel (s.pool.length + 1) s x

end stack_pool

/-- The iterator class `MyIterator<P, T, N>`: a pointer to the pool and the
current stack index. -/
structure MyIterator (T : Type) where
  PoolPointer : stack_pool T
  StackIndex : Nat

namespace MyIterator

variable {T : Type} [Inhabited T]

/-- `operator*`: dereference yields `pool->value(StackIndex)`. -/
def deref (it : MyIterator T) : T := it.PoolPointer.value it.StackIndex

/-- `operator++`: advance to `pool->next(StackIndex)`. -/
def succ (it : MyIterator T) : MyIterator T :=
  { it with StackIndex := it.PoolPointer.next it.StackIndex }

/-- `operator==`: two iterators are equal iff their `StackIndex` fields are
equal; the pool pointers are ignored. -/
def eqOp (lhs rhs : MyIterator T) : Bool := lhs.StackIndex == rhs.StackIndex

/-- `operator!=`: the index-wise disequality. -/
def neOp (lhs rhs : MyIterator T) : Bool := lhs.StackIndex != rhs.StackIndex

end MyIterator

namespace stack_pool

variable {T : Type} [Inhabited T]

/-- The values produced by iterating a stack from index `x`: repeatedly
dereference (`value`) and increment (`next`) until the index is the sentinel
`0`, with explicit fuel. -/
def iterVals (s : stack_pool T) : Nat → Nat → List T
  | 0, _ => []
  | fuel + 1, x =>
      if x = 0 then []
      else s.value x :: s.iterVals fuel (s.next x)

/-- The index reached after incrementing the iterator `k` times from `x`. -/
def advance (s : stack_pool T) : Nat → Nat → Nat
  | 0, x => x
  | k + 1, x => s.advance k (s.next x)

/-- Pushing a list of values in order onto the stack headed by `h`,
rethreading the head after each push (the usual client protocol). -/
def pushSeq (s : stack_pool T) : List T → Nat → stack_pool T × Nat
  | [], h => (s, h)
  | v :: vs, h =>
      let p := s.push v h
      p.1.pushSeq vs p.2

/-- External iteration calling `pop` on the successive heads exactly `k`
times, the loop `free_stack` is claimed equivalent to. -/
def popTimes (s : stack_pool T) : Nat → Nat → stack_pool T × Nat
  | 0, x => (s, x)
  | k + 1, x =>
      let p := s.pop x
      p.1.popTimes k p.2

/-- A sequence of `pop` calls at the given handles. -/
def popSeq (s : stack_pool T) : List Nat → stack_pool T
  | [] => s
  | x :: xs => (s.pop x).1.popSeq xs

/-- A sequence of pushes, each with its own value and head argument. -/
def pushFold (s : stack_pool T) : List (T × Nat) → stack_pool T
  | [] => s
  | p :: ps => (s.push p.1 p.2).1.pushFold ps

/-- `isChain s x l`: from index `x` the `next` relation steps through
exactly the indices of `l`, each non-sentinel and in range, and terminates
at the sentinel `0`.  This is the well-formedness of one linked list of the
pool (a live stack or the free list): finite, in-bounds, `0`-terminated. -/
inductive isChain (s : stack_pool T) : Nat → List Nat → Prop
  | nil : isChain s 0 []
  | cons (x : Nat) (l : List Nat) :
      x ≠ 0 → x ≤ s.pool.length → isChain s (s.next x) l →
      isChain s x (x :: l)

end stack_pool

namespace stack_pool

variable {T : Type} [Inhabited T]

/-! ## Basic facts about the accessors and mutators -/

theorem pool_length_setValue (s : stack_pool T) (x : Nat) (v : T) :
    (s.setValue x v).pool.length = s.pool.length := by
  unfold setValue; split <;> simp

theorem pool_length_setNext (s : stack_pool T) (x n : Nat) :
    (s.setNext x n).pool.length = s.pool.length := by
  unfold setNext; split <;> simp

theorem cap_setValue (s : stack_pool T) (x : Nat) (v : T) :
    (s.setValue x v).cap = s.cap := by
  unfold setValue; split <;> rfl

theorem cap_setNext (s : stack_pool T) (x n : Nat) :
    (s.setNext x n).cap = s.cap := by
  unfold setNext; split <;> rfl

theorem free_setValue (s : stack_pool T) (x : Nat) (v : T) :
    (s.setValue x v).free_nodes = s.free_nodes := by
  unfold setValue; split <;> rfl

theorem free_setNext (s : stack_pool T) (x n : Nat) :
    (s.setNext x n).free_nodes = s.free_nodes := by
  unfold setNext; split <;> rfl

theorem node_setValue_ne (s : stack_pool T) (x : Nat) (v : T) {a : Nat}
    (h : a ≠ x) : (s.setValue x v).node a = s.node a := by
  by_cases hx : x = 0
  · simp [setValue, hx]
  · by_cases ha : a = 0
    · simp [node, setValue, hx, ha]
    · have hne : x - 1 ≠ a - 1 := by omega
      simp [node, setValue, hx, ha, List.getElem?_set_ne hne]

theorem node_setNext_ne (s : stack_pool T) (x n : Nat) {a : Nat}
    (h : a ≠ x) : (s.setNext x n).node a = s.node a := by
  by_cases hx : x = 0
  · simp [setNext, hx]
  · by_cases ha : a = 0
    · simp [node, setNext, hx, ha]
    · have hne : x - 1 ≠ a - 1 := by omega
      simp [node, setNext, hx, ha, List.getElem?_set_ne hne]

theorem node_setValue_self (s : stack_pool T) {x : Nat} (v : T)
    (hx : x ≠ 0) (hle : x ≤ s.pool.length) :
    (s.setValue x v).node x = ⟨v, (s.node x).next⟩ := by
  have hlt : x - 1 < s.pool.length := by omega
  simp [node, setValue, hx, List.getElem?_set_eq hlt]

theorem node_setNext_self (s : stack_pool T) {x : Nat} (n : Nat)
    (hx : x ≠ 0) (hle : x ≤ s.pool.length) :
    (s.setNext x n).node x = ⟨(s.node x).value, n⟩ := by
  have hlt : x - 1 < s.pool.length := by omega
  simp [node, setNext, hx, List.getElem?_set_eq hlt]

theorem next_setValue (s : stack_pool T) (x : Nat) (v : T) (a : Nat) :
    (s.setValue x v).next a = s.next a := by
  by_cases h : a = x
  · subst h
    by_cases ha : a = 0
    · subst ha; unfold setValue; simp
    · by_cases hle : a ≤ s.pool.length
      · rw [next, node_setValue_self s v ha hle]; rfl
      · unfold setValue
        simp only [ha, if_false]
        have : s.pool.set (a - 1) ⟨v, (s.node a).next⟩ = s.pool :=
          List.set_eq_of_length_le (by omega)
        simp [this]
  · rw [next, node_setValue_ne s x v h]; rfl

theorem value_setNext (s : stack_pool T) (x n : Nat) (a : Nat) :
    (s.setNext x n).value a = s.value a := by
  by_cases h : a = x
  · subst h
    by_cases ha : a = 0
    · subst ha; unfold setNext; simp
    · by_cases hle : a ≤ s.pool.length
      · rw [value, node_setNext_self s n ha hle]; rfl
      · unfold setNext
        simp only [ha, if_false]
        have : s.pool.set (a - 1) ⟨(s.node a).value, n⟩ = s.pool :=
          List.set_eq_of_length_le (by omega)
        simp [this]
  · rw [value, node_setNext_ne s x n h]; rfl

theorem next_setNext_self (s : stack_pool T) {x : Nat} (n : Nat)
    (hx : x ≠ 0) (hle : x ≤ s.pool.length) :
    (s.setNext x n).next x = n := by
  rw [next, node_setNext_self s n hx hle]

theorem value_setValue_self (s : stack_pool T) {x : Nat} (v : T)
    (hx : x ≠ 0) (hle : x ≤ s.pool.length) :
    (s.setValue x v).value x = v := by
  rw [value, node_setValue_self s v hx hle]

/-! ## `pop`: state-level specification -/

theorem pop_spec (s : stack_pool T) {x : Nat}
    (hx : x ≠ 0) (hle : x ≤ s.pool.length) :
    (s.pop x).2 = s.next x ∧
    (s.pop x).1.free_nodes = x ∧
    (s.pop x).1.pool.length = s.pool.length ∧
    (s.pop x).1.cap = s.cap ∧
    (s.pop x).1.next x = s.free_nodes ∧
    (∀ a, a ≠ x → (s.pop x).1.node a = s.node a) := by
  refine ⟨rfl, rfl, ?_, ?_, ?_, ?_⟩
  · show (s.setNext x s.free_nodes).pool.length = s.pool.length
    exact pool_length_setNext s x s.free_nodes
  · show (s.setNext x s.free_nodes).cap = s.cap
    exact cap_setNext s x s.free_nodes
  · show (s.setNext x s.free_nodes).next x = s.free_nodes
    exact next_setNext_self s s.free_nodes hx hle
  · intro a ha
    show (s.setNext x s.free_nodes).node a = s.node a
    exact node_setNext_ne s x s.free_nodes ha

theorem pop_pool_length (s : stack_pool T) (x : Nat) :
    (s.pop x).1.pool.length = s.pool.length :=
  pool_length_setNext s x s.free_nodes

theorem pop_cap (s : stack_pool T) (x : Nat) :
    (s.pop x).1.cap = s.cap :=
  cap_setNext s x s.free_nodes

end stack_pool

namespace stack_pool

variable {T : Type} [Inhabited T]

/-! ## Structural facts about chains -/

theorem isChain_mono {s s' : stack_pool T} {x : Nat} {l : List Nat}
    (h : s.isChain x l) (hlen : s.pool.length ≤ s'.pool.length)
    (hnext : ∀ a ∈ l, s'.next a = s.next a) : s'.isChain x l := by
  induction h with
  | nil => exact .nil
  | cons y m hy hyle _ ih =>
      refine .cons y m hy (le_trans hyle hlen) ?_
      rw [hnext y (by simp)]
      exact ih fun a ha => hnext a (by simp [ha])

theorem isChain_mem {s : stack_pool T} {x : Nat} {l : List Nat}
    (h : s.isChain x l) : ∀ a ∈ l, a ≠ 0 ∧ a ≤ s.pool.length := by
  induction h with
  | nil => intro a ha; cases ha
  | cons y m hy hyle _ ih =>
      intro a ha
      rcases List.mem_cons.1 ha with rfl | ha
      · exact ⟨hy, hyle⟩
      · exact ih a ha

theorem isChain_unique {s : stack_pool T} {x : Nat} {l l' : List Nat}
    (h : s.isChain x l) (h' : s.isChain x l') : l = l' := by
  induction h generalizing l' with
  | nil => cases h' with
      | nil => rfl
      | cons y m hy => exact absurd rfl hy
  | cons y m hy hyle hm ih =>
      cases h' with
      | nil => exact absurd rfl hy
      | cons _ m' hy' hyle' hm' => rw [ih hm']

theorem isChain_suffix {s : stack_pool T} {x a : Nat} {l1 l2 : List Nat}
    (h : s.isChain x (l1 ++ a :: l2)) : s.isChain a (a :: l2) := by
  induction l1 generalizing x with
  | nil =>
      cases h with
      | cons _ _ hy hyle hm => exact .cons a l2 hy hyle hm
  | cons b l1 ih =>
      cases h with
      | cons _ _ hy hyle hm => exact ih hm

theorem isChain_nodup {s : stack_pool T} {x : Nat} {l : List Nat}
    (h : s.isChain x l) : l.Nodup := by
  induction h with
  | nil => exact List.nodup_nil
  | cons y m hy hyle hm ih =>
      refine List.nodup_cons.2 ⟨?_, ih⟩
      intro hmem
      obtain ⟨l1, l2, rfl⟩ := List.append_of_mem hmem
      have h1 : s.isChain y (y :: (l1 ++ y :: l2)) :=
        .cons y _ hy hyle hm
      have h2 : s.isChain y (y :: l2) :=
        @isChain_suffix T _ s y y (y :: l1) l2 h1
      have := isChain_unique h1 h2
      have hlen := congrArg List.length this
      simp at hlen
      omega

theorem isChain_nil_of_eq {s : stack_pool T} {x : Nat} {l : List Nat}
    (h : s.isChain x l) (hx : x = 0) : l = [] := by
  cases h with
  | nil => rfl
  | cons y m hy => exact absurd hx hy

theorem isChain_cons_inv {s : stack_pool T} {x : Nat} {l : List Nat}
    (h : s.isChain x l) (hx : x ≠ 0) :
    ∃ m, l = x :: m ∧ x ≤ s.pool.length ∧ s.isChain (s.next x) m := by
  cases h with
  | nil => exact absurd rfl hx
  | cons y m hy hyle hm => exact ⟨m, rfl, hyle, hm⟩

theorem isChain_length_le {s : stack_pool T} {x : Nat} {l : List Nat}
    (h : s.isChain x l) : l.length ≤ s.pool.length := by
  classical
  have hnd : l.Nodup := isChain_nodup h
  have hsub : l.toFinset ⊆ Finset.Icc 1 s.pool.length := by
    intro a ha
    have := isChain_mem h a (List.mem_toFinset.1 ha)
    exact Finset.mem_Icc.2 ⟨by omega, this.2⟩
  have hcard := Finset.card_le_card hsub
  rw [List.toFinset_card_of_nodup hnd, Nat.card_Icc] at hcard
  omega

end stack_pool

namespace stack_pool

variable {T : Type} [Inhabited T]

/-! ## `push`: the two paths of `_push` -/

theorem push_eq_grow (s : stack_pool T) (v : T) (h : Nat)
    (h0 : s.free_nodes = 0) :
    s.push v h =
      ({ s with
          pool := s.pool ++ [⟨v, h⟩],
          cap := if s.pool.length + 1 ≤ s.cap then s.cap
                 else max (2 * s.cap) (s.pool.length + 1) },
       s.pool.length + 1) := by
  rw [push, if_pos h0]

theorem push_eq_reuse (s : stack_pool T) (v : T) (h : Nat)
    (hne : s.free_nodes ≠ 0) :
    s.push v h =
      ((({ s with free_nodes := s.next s.free_nodes
          }.setValue s.free_nodes v).setNext s.free_nodes h),
       s.free_nodes) := by
  rw [push, if_neg hne]

theorem push_grow_spec (s : stack_pool T) (v : T) (h : Nat)
    (h0 : s.free_nodes = 0) :
    (s.push v h).2 = s.pool.length + 1 ∧
    (s.push v h).1.pool = s.pool ++ [⟨v, h⟩] ∧
    (s.push v h).1.free_nodes = s.free_nodes ∧
    (s.push v h).1.pool.length = s.pool.length + 1 ∧
    (s.push v h).1.node (s.pool.length + 1) = ⟨v, h⟩ ∧
    (∀ a, a ≠ s.pool.length + 1 → (s.push v h).1.node a = s.node a) ∧
    s.cap ≤ (s.push v h).1.cap := by
  rw [push_eq_grow s v h h0]
  refine ⟨rfl, rfl, rfl, by simp, ?_, ?_, ?_⟩
  · have he : s.pool.length + 1 - 1 = s.pool.length := by omega
    simp [node, he]
  · intro a ha
    by_cases haz : a = 0
    · simp [node, haz]
    · simp only [node, haz, if_false]
      by_cases hlt : a - 1 < s.pool.length
      · congr 1
        exact List.get?_append hlt
      · have h2 : s.pool.length + 1 ≤ a - 1 := by omega
        rw [List.get?_eq_none.2 (by simpa using h2),
            List.get?_eq_none.2 (by omega)]
  · dsimp only
    split
    · exact le_refl _
    · omega

theorem push_reuse_frame (s : stack_pool T) (v : T) (h : Nat)
    (hne : s.free_nodes ≠ 0) :
    (s.push v h).2 = s.free_nodes ∧
    (s.push v h).1.free_nodes = s.next s.free_nodes ∧
    (s.push v h).1.pool.length = s.pool.length ∧
    (s.push v h).1.cap = s.cap ∧
    (∀ a, a ≠ s.free_nodes → (s.push v h).1.node a = s.node a) := by
  rw [push_eq_reuse s v h hne]
  set f := s.free_nodes with hf
  set s1 : stack_pool T := { s with free_nodes := s.next f } with hs1
  refine ⟨rfl, ?_, ?_, ?_, ?_⟩
  · show ((s1.setValue f v).setNext f h).free_nodes = s.next f
    rw [free_setNext, free_setValue]
  · show ((s1.setValue f v).setNext f h).pool.length = s.pool.length
    rw [pool_length_setNext, pool_length_setValue]
  · show ((s1.setValue f v).setNext f h).cap = s.cap
    rw [cap_setNext, cap_setValue]
  · intro a ha
    show ((s1.setValue f v).setNext f h).node a = s.node a
    rw [node_setNext_ne _ _ _ ha, node_setValue_ne _ _ _ ha]
    rfl

theorem push_reuse_spec (s : stack_pool T) (v : T) (h : Nat)
    (hne : s.free_nodes ≠ 0) (hle : s.free_nodes ≤ s.pool.length) :
    (s.push v h).2 = s.free_nodes ∧
    (s.push v h).1.free_nodes = s.next s.free_nodes ∧
    (s.push v h).1.pool.length = s.pool.length ∧
    (s.push v h).1.cap = s.cap ∧
    (s.push v h).1.node s.free_nodes = ⟨v, h⟩ ∧
    (∀ a, a ≠ s.free_nodes → (s.push v h).1.node a = s.node a) := by
  obtain ⟨h1, h2, h3, h4, h6⟩ := push_reuse_frame s v h hne
  refine ⟨h1, h2, h3, h4, ?_, h6⟩
  rw [push_eq_reuse s v h hne]
  set f := s.free_nodes with hf
  set s1 : stack_pool T := { s with free_nodes := s.next f } with hs1
  show ((s1.setValue f v).setNext f h).node f = ⟨v, h⟩
  have hle1 : f ≤ s1.pool.length := hle
  have hle2 : f ≤ (s1.setValue f v).pool.length := by
    rw [pool_length_setValue]; exact hle1
  rw [node_setNext_self _ _ hne hle2, node_setValue_self _ _ hne hle1]

end stack_pool

namespace stack_pool

variable {T : Type} [Inhabited T]

/-! ## Chains across `push` -/

theorem push_chain (s : stack_pool T) (v : T) {h : Nat} {lh fl : List Nat}
    (hc : s.isChain h lh) (hf : s.isChain s.free_nodes fl)
    (hnd : (fl ++ lh).Nodup) :
    ∃ fl',
      (s.push v h).1.isChain (s.push v h).2 ((s.push v h).2 :: lh) ∧
      (s.push v h).1.isChain (s.push v h).1.free_nodes fl' ∧
      (fl' ++ ((s.push v h).2 :: lh)).Nodup ∧
      (s.push v h).1.value (s.push v h).2 = v ∧
      (∀ a, a ≠ (s.push v h).2 → (s.push v h).1.node a = s.node a) ∧
      s.pool.length ≤ (s.push v h).1.pool.length := by
  by_cases h0 : s.free_nodes = 0
  · -- growth path: a fresh node is appended at index `pool.length + 1`
    obtain ⟨hr, _, hfree, hlen, hnode, hframe, _⟩ := push_grow_spec s v h h0
    have hfl : fl = [] := isChain_nil_of_eq hf h0
    have hlhle : ∀ a ∈ lh, a ≠ 0 ∧ a ≤ s.pool.length := isChain_mem hc
    have hrlh : s.pool.length + 1 ∉ lh := fun hmem => by
      have := (hlhle _ hmem).2; omega
    have hmono : (s.push v h).1.isChain h lh := by
      refine isChain_mono hc (by omega) fun a ha => ?_
      have hcond := hlhle a ha
      show ((s.push v h).1.node a).next = (s.node a).next
      rw [hframe a (by omega)]
    refine ⟨[], ?_, ?_, ?_, ?_, ?_, by omega⟩
    · rw [hr]
      refine .cons _ _ (by omega) (by omega) ?_
      have : (s.push v h).1.next (s.pool.length + 1) = h := by
        show ((s.push v h).1.node (s.pool.length + 1)).next = h
        rw [hnode]
      rw [this]
      exact hmono
    · rw [hfree, h0]; exact .nil
    · simp only [List.nil_append, List.nodup_cons, hr]
      exact ⟨hrlh, isChain_nodup hc⟩
    · show ((s.push v h).1.node (s.push v h).2).value = v
      rw [hr, hnode]
    · rw [hr]; exact hframe
  · -- reuse path: the head of the free list is recycled
    obtain ⟨fl'', rfl, hfle, hfl''⟩ := isChain_cons_inv hf h0
    obtain ⟨hr, hfree, hlen, _, hnode, hframe⟩ := push_reuse_spec s v h h0 hfle
    have hndc := hnd
    rw [List.cons_append, List.nodup_cons] at hndc
    obtain ⟨hfnotin, hnd'⟩ := hndc
    have hfnotfl : s.free_nodes ∉ fl'' := fun hm =>
      hfnotin (List.mem_append.2 (Or.inl hm))
    have hfnotlh : s.free_nodes ∉ lh := fun hm =>
      hfnotin (List.mem_append.2 (Or.inr hm))
    have hchain_lh : (s.push v h).1.isChain h lh := by
      refine isChain_mono hc (by omega) fun a ha => ?_
      show ((s.push v h).1.node a).next = (s.node a).next
      rw [hframe a (fun he => hfnotlh (he ▸ ha))]
    refine ⟨fl'', ?_, ?_, ?_, ?_, ?_, by omega⟩
    · rw [hr]
      refine .cons _ _ h0 (by omega) ?_
      have : (s.push v h).1.next s.free_nodes = h := by
        show ((s.push v h).1.node s.free_nodes).next = h
        rw [hnode]
      rw [this]
      exact hchain_lh
    · rw [hfree]
      refine isChain_mono hfl'' (by omega) fun a ha => ?_
      show ((s.push v h).1.node a).next = (s.node a).next
      rw [hframe a (fun he => hfnotfl (he ▸ ha))]
    · rw [hr]
      have hperm : (fl'' ++ s.free_nodes :: lh).Perm
          (s.free_nodes :: (fl'' ++ lh)) := List.perm_middle
      exact hperm.symm.nodup (List.nodup_cons.2 ⟨hfnotin, hnd'⟩)
    · show ((s.push v h).1.node (s.push v h).2).value = v
      rw [hr, hnode]
    · rw [hr]; exact hframe

theorem pushSeq_chain (vs : List T) :
    ∀ (s : stack_pool T) (h : Nat) (lh fl : List Nat),
    s.isChain h lh → s.isChain s.free_nodes fl → (fl ++ lh).Nodup →
    ∃ ixs fl',
      (s.pushSeq vs h).1.isChain (s.pushSeq vs h).2 (ixs ++ lh) ∧
      ixs.length = vs.length ∧
      ((ixs ++ lh).map fun a => (s.pushSeq vs h).1.value a) =
        vs.reverse ++ (lh.map fun a => s.value a) ∧
      (s.pushSeq vs h).1.isChain (s.pushSeq vs h).1.free_nodes fl' ∧
      (fl' ++ (ixs ++ lh)).Nodup := by
  induction vs with
  | nil =>
      intro s h lh fl hc hf hnd
      exact ⟨[], fl, hc, rfl, rfl, hf, hnd⟩
  | cons v vs ih =>
      intro s h lh fl hc hf hnd
      obtain ⟨fl1, hc1, hf1, hnd1, hval1, hframe1, _⟩ := push_chain s v hc hf hnd
      set s1 := (s.push v h).1 with hs1
      set r := (s.push v h).2 with hr
      obtain ⟨ixs, fl', hc2, hlen2, hmap2, hf2, hnd2⟩ :=
        ih s1 r (r :: lh) fl1 hc1 hf1 hnd1
      have hrnotlh : r ∉ lh := by
        have := hnd1
        rw [List.nodup_append] at this
        exact (List.nodup_cons.1 this.2.1).1
      have hps : s.pushSeq (v :: vs) h = s1.pushSeq vs r := rfl
      refine ⟨ixs ++ [r], fl', ?_, ?_, ?_, ?_, ?_⟩
      · rw [hps, List.append_assoc, List.singleton_append]
        exact hc2
      · simp [hlen2]
      · rw [hps, List.append_assoc, List.singleton_append, hmap2]
        have hlhmap : (lh.map fun a => s1.value a) = lh.map fun a => s.value a := by
          refine List.map_congr_left fun a ha => ?_
          show (s1.node a).value = (s.node a).value
          rw [hframe1 a (fun he => hrnotlh (he ▸ ha))]
        rw [List.map_cons, hlhmap, hval1]
        simp
      · rw [hps]; exact hf2
      · rw [List.append_assoc, List.singleton_append]
        exact hnd2

/-! ## Iteration along a chain -/

theorem iterVals_of_chain {s : stack_pool T} {x : Nat} {l : List Nat}
    (h : s.isChain x l) :
    ∀ fuel, l.length ≤ fuel →
      s.iterVals fuel x = l.map (fun a => s.value a) ∧
      s.advance l.length x = 0 := by
  induction h with
  | nil =>
      intro fuel _
      constructor
      · cases fuel with
        | zero => rfl
        | succ fuel => simp [iterVals]
      · rfl
  | cons y m hy hyle hm ih =>
      intro fuel hfuel
      cases fuel with
      | zero => simp at hfuel
      | succ fuel =>
          have hrec := ih fuel (by simpa using hfuel)
          constructor
          · simp only [iterVals, hy, if_false, List.map_cons]
            rw [hrec.1]
          · show s.advance (m.length + 1) y = 0
            have : s.advance (m.length + 1) y = s.advance m.length (s.next y) := rfl
            rw [this, hrec.2]

/-! ## Chains across `pop` and `free_stack` -/

theorem pop_chain (s : stack_pool T) {x : Nat} {lx fl : List Nat}
    (hc : s.isChain x lx) (hx : x ≠ 0) (hf : s.isChain s.free_nodes fl)
    (hnd : (fl ++ lx).Nodup) :
    ∃ lx', lx = x :: lx' ∧
      (s.pop x).2 = s.next x ∧
      (s.pop x).1.isChain (s.pop x).2 lx' ∧
      (s.pop x).1.isChain (s.pop x).1.free_nodes (x :: fl) ∧
      ((x :: fl) ++ lx').Nodup ∧
      (s.pop x).1.pool.length = s.pool.length ∧
      (s.pop x).1.cap = s.cap ∧
      (∀ a, a ≠ x → (s.pop x).1.node a = s.node a) := by
  obtain ⟨lx', rfl, hle, hrest⟩ := isChain_cons_inv hc hx
  obtain ⟨htmp, hfree, hlen, hcap, hnx, hframe⟩ := pop_spec s hx hle
  have hndx : (x :: (fl ++ lx')).Nodup := by
    refine (List.Perm.nodup ?_ hnd)
    exact List.perm_middle
  obtain ⟨hxnot, hnd'⟩ := List.nodup_cons.1 hndx
  have hxfl : x ∉ fl := fun hm => hxnot (List.mem_append.2 (Or.inl hm))
  have hxlx : x ∉ lx' := fun hm => hxnot (List.mem_append.2 (Or.inr hm))
  refine ⟨lx', rfl, htmp, ?_, ?_, ?_, hlen, hcap, hframe⟩
  · rw [htmp]
    refine isChain_mono hrest (by omega) fun a ha => ?_
    show ((s.pop x).1.node a).next = (s.node a).next
    rw [hframe a (fun he => hxlx (he ▸ ha))]
  · rw [hfree]
    refine .cons _ _ hx (by omega) ?_
    rw [hnx]
    refine isChain_mono hf (by omega) fun a ha => ?_
    show ((s.pop x).1.node a).next = (s.node a).next
    rw [hframe a (fun he => hxfl (he ▸ ha))]
  · rw [List.cons_append]
    refine List.nodup_cons.2 ⟨?_, hnd'⟩
    intro hm
    rcases List.mem_append.1 hm with hm | hm
    · exact hxfl hm
    · exact hxlx hm

theorem free_stack_fuel_eq :
    ∀ (l : List Nat) (s : stack_pool T) (x : Nat),
    s.isChain x l → ∀ fuel, l.length < fuel →
    free_stack_fuel fuel s x = ((s.popTimes l.length x).1, 0) := by
  intro l
  induction l with
  | nil =>
      intro s x hc fuel hfuel
      have hx0 : x = 0 := by
        by_cases hx : x = 0
        · exact hx
        · obtain ⟨m, hm, _⟩ := isChain_cons_inv hc hx
          simp at hm
      subst hx0
      cases fuel with
      | zero => omega
      | succ fuel => simp [free_stack_fuel, popTimes]
  | cons a l' ih =>
      intro s x hc fuel hfuel
      have hx : x ≠ 0 := by
        intro hx0
        have := isChain_nil_of_eq hc hx0
        simp at this
      obtain ⟨m, hm, hle, hrest⟩ := isChain_cons_inv hc hx
      injection hm with h1 h2
      subst h1
      subst h2
      cases fuel with
      | zero => omega
      | succ fuel =>
          have hnd := isChain_nodup hc
          have hxlx : a ∉ l' := (List.nodup_cons.1 hnd).1
          obtain ⟨htmp, _, hlen, _, _, hframe⟩ := pop_spec s hx hle
          have hchain' : (s.pop a).1.isChain (s.pop a).2 l' := by
            rw [htmp]
            refine isChain_mono hrest (by omega) fun b hb => ?_
            show ((s.pop a).1.node b).next = (s.node b).next
            rw [hframe b (fun he => hxlx (he ▸ hb))]
          have hstep : free_stack_fuel (fuel + 1) s a =
              free_stack_fuel fuel (s.pop a).1 (s.pop a).2 := by
            simp [free_stack_fuel, hx]
          have hstep2 : (s.popTimes (a :: l').length a) =
              ((s.pop a).1.popTimes l'.length (s.pop a).2) := rfl
          rw [hstep, hstep2]
          exact ih (s.pop a).1 (s.pop a).2 hchain' fuel (by simp at hfuel; omega)

theorem free_stack_fuel_inv :
    ∀ (l : List Nat) (s : stack_pool T) (x : Nat) (fl : List Nat),
    s.isChain x l → s.isChain s.free_nodes fl → (fl ++ l).Nodup →
    ∀ fuel, l.length < fuel →
    (free_stack_fuel fuel s x).2 = 0 ∧
    (free_stack_fuel fuel s x).1.pool.length = s.pool.length ∧
    (free_stack_fuel fuel s x).1.cap = s.cap ∧
    (free_stack_fuel fuel s x).1.isChain
        (free_stack_fuel fuel s x).1.free_nodes (l.reverse ++ fl) ∧
    (∀ a, a ∉ l → (free_stack_fuel fuel s x).1.node a = s.node a) := by
  intro l
  induction l with
  | nil =>
      intro s x fl hc hf hnd fuel hfuel
      have hx0 : x = 0 := by
        by_cases hx : x = 0
        · exact hx
        · obtain ⟨m, hm, _⟩ := isChain_cons_inv hc hx
          simp at hm
      subst hx0
      cases fuel with
      | zero => omega
      | succ fuel =>
          simp only [free_stack_fuel, if_pos rfl]
          exact ⟨rfl, rfl, rfl, by simpa using hf, fun a _ => rfl⟩
  | cons b l' ih =>
      intro s x fl hc hf hnd fuel hfuel
      have hx : x ≠ 0 := by
        intro hx0
        have := isChain_nil_of_eq hc hx0
        simp at this
      obtain ⟨lx', heq, htmp, hc2, hf2, hnd2, hlen2, hcap2, hframe2⟩ :=
        pop_chain s hc hx hf hnd
      injection heq with h1 h2
      subst h1
      subst h2
      cases fuel with
      | zero => omega
      | succ fuel =>
          have hstep : free_stack_fuel (fuel + 1) s b =
              free_stack_fuel fuel (s.pop b).1 (s.pop b).2 := by
            simp [free_stack_fuel, hx]
          obtain ⟨ih1, ih2, ih3, ih4, ih5⟩ :=
            ih (s.pop b).1 (s.pop b).2 (b :: fl) hc2 hf2 hnd2 fuel
              (by simp at hfuel; omega)
          rw [hstep]
          refine ⟨ih1, ?_, ?_, ?_, ?_⟩
          · rw [ih2, hlen2]
          · rw [ih3, hcap2]
          · have hrw : (b :: l').reverse ++ fl = l'.reverse ++ (b :: fl) := by
              rw [List.reverse_cons, List.append_assoc, List.singleton_append]
            rw [hrw]
            exact ih4
          · intro a ha
            have hanl : a ∉ l' := fun hm => ha (List.mem_cons.2 (Or.inr hm))
            have hanb : a ≠ b := fun he => ha (List.mem_cons.2 (Or.inl he))
            rw [ih5 a hanl, hframe2 a hanb]

theorem free_stack_eq_popTimes (s : stack_pool T) {x : Nat} {l : List Nat}
    (hc : s.isChain x l) :
    s.free_stack x = ((s.popTimes l.length x).1, 0) := by
  have hlt : l.length < s.pool.length + 1 :=
    Nat.lt_succ_of_le (isChain_length_le hc)
  exact free_stack_fuel_eq l s x hc (s.pool.length + 1) hlt

theorem free_stack_inv (s : stack_pool T) {x : Nat} {l fl : List Nat}
    (hc : s.isChain x l) (hf : s.isChain s.free_nodes fl)
    (hnd : (fl ++ l).Nodup) :
    (s.free_stack x).2 = 0 ∧
    (s.free_stack x).1.pool.length = s.pool.length ∧
    (s.free_stack x).1.cap = s.cap ∧
    (s.free_stack x).1.isChain
        (s.free_stack x).1.free_nodes (l.reverse ++ fl) ∧
    (∀ a, a ∉ l → (s.free_stack x).1.node a = s.node a) := by
  have hlt : l.length < s.pool.length + 1 :=
    Nat.lt_succ_of_le (isChain_length_le hc)
  exact free_stack_fuel_inv l s x fl hc hf hnd (s.pool.length + 1) hlt

end stack_pool

namespace stack_pool

variable {T : Type} [Inhabited T]

/-! ## The pool invariant over lists of live handles -/

theorem forall₂_append_both {α β : Type} {R : α → β → Prop} :
    ∀ {l1 l2 : List α} {m1 m2 : List β},
    List.Forall₂ R l1 m1 → List.Forall₂ R l2 m2 →
    List.Forall₂ R (l1 ++ l2) (m1 ++ m2) := by
  intro l1 l2 m1 m2 h1 h2
  induction h1 with
  | nil => exact h2
  | cons hR _ ih => exact .cons hR ih

theorem forall₂_append_cons_inv {α β : Type} {R : α → β → Prop} :
    ∀ {pre : List α} {h : α} {post : List α} {ls : List β},
    List.Forall₂ R (pre ++ h :: post) ls →
    ∃ lpre lh lpost, ls = lpre ++ lh :: lpost ∧
      List.Forall₂ R pre lpre ∧ R h lh ∧ List.Forall₂ R post lpost := by
  intro pre
  induction pre with
  | nil =>
      intro h post ls hall
      obtain ⟨b, l'', hR, hrest, rfl⟩ := List.forall₂_cons_left_iff.1 hall
      exact ⟨[], b, l'', rfl, .nil, hR, hrest⟩
  | cons a pre ih =>
      intro h post ls hall
      obtain ⟨b, l'', hR, hrest, rfl⟩ := List.forall₂_cons_left_iff.1 hall
      obtain ⟨lpre, lh, lpost, rfl, h1, h2, h3⟩ := ih hrest
      exact ⟨b :: lpre, lh, lpost, rfl, .cons hR h1, h2, h3⟩

theorem forall₂_chain_mem {s : stack_pool T} {hs : List Nat}
    {ls : List (List Nat)} (h : List.Forall₂ s.isChain hs ls) :
    ∀ a ∈ ls.flatten, a ≠ 0 ∧ a ≤ s.pool.length := by
  induction h with
  | nil => intro a ha; simp at ha
  | cons hR _ ih =>
      intro a ha
      rw [List.flatten_cons, List.mem_append] at ha
      rcases ha with ha | ha
      · exact isChain_mem hR a ha
      · exact ih a ha

theorem forall₂_chain_transport {s s' : stack_pool T} {hs : List Nat}
    {ls : List (List Nat)} (h : List.Forall₂ s.isChain hs ls)
    (hlen : s.pool.length ≤ s'.pool.length)
    (hnext : ∀ a ∈ ls.flatten, s'.next a = s.next a) :
    List.Forall₂ s'.isChain hs ls := by
  induction h with
  | nil => exact .nil
  | cons hR hrest ih =>
      refine .cons (isChain_mono hR hlen ?_) (ih ?_)
      · intro a ha
        exact hnext a (by rw [List.flatten_cons, List.mem_append]; exact Or.inl ha)
      · intro a ha
        exact hnext a (by rw [List.flatten_cons, List.mem_append]; exact Or.inr ha)

/-- The pool invariant: the free list is a well-formed chain, every live
handle heads a well-formed chain, and no node index occurs in two of these
lists (nor twice in one). -/
def PoolInv (s : stack_pool T) (hs : List Nat) : Prop :=
  ∃ fl ls, s.isChain s.free_nodes fl ∧
    List.Forall₂ s.isChain hs ls ∧
    (fl ++ ls.flatten).Nodup

end stack_pool

namespace stack_pool

variable {T : Type} [Inhabited T]

theorem inv_push {s : stack_pool T} (v : T) {h : Nat} {lh fl : List Nat}
    {pre post : List Nat} {lpre lpost : List (List Nat)}
    (hc : s.isChain h lh) (hf : s.isChain s.free_nodes fl)
    (hpre : List.Forall₂ s.isChain pre lpre)
    (hpost : List.Forall₂ s.isChain post lpost)
    (hnd : (fl ++ (lpre.flatten ++ (lh ++ lpost.flatten))).Nodup) :
    ∃ fl',
      (s.push v h).1.isChain (s.push v h).1.free_nodes fl' ∧
      (s.push v h).1.isChain (s.push v h).2 ((s.push v h).2 :: lh) ∧
      List.Forall₂ (s.push v h).1.isChain pre lpre ∧
      List.Forall₂ (s.push v h).1.isChain post lpost ∧
      (fl' ++ (lpre.flatten ++ (((s.push v h).2 :: lh) ++ lpost.flatten))).Nodup := by
  by_cases h0 : s.free_nodes = 0
  · -- growth path
    have hfl : fl = [] := isChain_nil_of_eq hf h0
    subst hfl
    obtain ⟨hr, _, hfree, hlen, hnode, hframe, _⟩ := push_grow_spec s v h h0
    have fnext : ∀ a, a ≠ s.pool.length + 1 →
        (s.push v h).1.next a = s.next a := by
      intro a ha
      show ((s.push v h).1.node a).next = (s.node a).next
      rw [hframe a ha]
    have hmemA := forall₂_chain_mem hpre
    have hmemB := forall₂_chain_mem hpost
    have hmemlh := isChain_mem hc
    have hpre' : List.Forall₂ (s.push v h).1.isChain pre lpre :=
      forall₂_chain_transport hpre (by omega)
        (fun a ha => fnext a (by have := (hmemA a ha).2; omega))
    have hpost' : List.Forall₂ (s.push v h).1.isChain post lpost :=
      forall₂_chain_transport hpost (by omega)
        (fun a ha => fnext a (by have := (hmemB a ha).2; omega))
    have hlh' : (s.push v h).1.isChain h lh :=
      isChain_mono hc (by omega)
        (fun a ha => fnext a (by have := (hmemlh a ha).2; omega))
    refine ⟨[], ?_, ?_, hpre', hpost', ?_⟩
    · rw [hfree, h0]; exact .nil
    · rw [hr]
      refine .cons _ _ (by omega) (by omega) ?_
      have hnx : (s.push v h).1.next (s.pool.length + 1) = h := by
        show ((s.push v h).1.node (s.pool.length + 1)).next = h
        rw [hnode]
      rw [hnx]
      exact hlh'
    · rw [hr, List.nil_append, List.cons_append]
      have hperm : (lpre.flatten ++
          ((s.pool.length + 1) :: (lh ++ lpost.flatten))).Perm
          ((s.pool.length + 1) :: (lpre.flatten ++ (lh ++ lpost.flatten))) :=
        List.perm_middle
      refine hperm.symm.nodup (List.nodup_cons.2 ⟨?_, by simpa using hnd⟩)
      intro hmem
      rcases List.mem_append.1 hmem with hm | hm
      · have := (hmemA _ hm).2; omega
      · rcases List.mem_append.1 hm with hm2 | hm2
        · have := (hmemlh _ hm2).2; omega
        · have := (hmemB _ hm2).2; omega
  · -- reuse path
    obtain ⟨fl'', hfleq, hfle, hfl''⟩ := isChain_cons_inv hf h0
    subst hfleq
    obtain ⟨hr, hfree, hlen, _, hnode, hframe⟩ := push_reuse_spec s v h h0 hfle
    rw [List.cons_append, List.nodup_cons] at hnd
    obtain ⟨hfnot, hnd2⟩ := hnd
    have fnext : ∀ a, a ≠ s.free_nodes →
        (s.push v h).1.next a = s.next a := by
      intro a ha
      show ((s.push v h).1.node a).next = (s.node a).next
      rw [hframe a ha]
    have hno : ∀ a, a ∈ fl'' ++ (lpre.flatten ++ (lh ++ lpost.flatten)) →
        a ≠ s.free_nodes := fun a ha he => hfnot (he ▸ ha)
    have hpre' : List.Forall₂ (s.push v h).1.isChain pre lpre :=
      forall₂_chain_transport hpre (by omega)
        (fun a ha => fnext a (hno a (by
          rw [List.mem_append]; right
          rw [List.mem_append]; left
          exact ha)))
    have hpost' : List.Forall₂ (s.push v h).1.isChain post lpost :=
      forall₂_chain_transport hpost (by omega)
        (fun a ha => fnext a (hno a (by
          rw [List.mem_append]; right
          rw [List.mem_append]; right
          rw [List.mem_append]; right
          exact ha)))
    have hlh' : (s.push v h).1.isChain h lh :=
      isChain_mono hc (by omega)
        (fun a ha => fnext a (hno a (by
          rw [List.mem_append]; right
          rw [List.mem_append]; right
          rw [List.mem_append]; left
          exact ha)))
    refine ⟨fl'', ?_, ?_, hpre', hpost', ?_⟩
    · rw [hfree]
      refine isChain_mono hfl'' (by omega)
        (fun a ha => fnext a (hno a (by
          rw [List.mem_append]; left
          exact ha)))
    · rw [hr]
      refine .cons _ _ h0 (by omega) ?_
      have hnx : (s.push v h).1.next s.free_nodes = h := by
        show ((s.push v h).1.node s.free_nodes).next = h
        rw [hnode]
      rw [hnx]
      exact hlh'
    · rw [hr, List.cons_append]
      have step1 : (lpre.flatten ++
          (s.free_nodes :: (lh ++ lpost.flatten))).Perm
          (s.free_nodes :: (lpre.flatten ++ (lh ++ lpost.flatten))) :=
        List.perm_middle
      have lift := step1.append_left fl''
      have step2 : (fl'' ++ (s.free_nodes ::
          (lpre.flatten ++ (lh ++ lpost.flatten)))).Perm
          (s.free_nodes :: (fl'' ++ (lpre.flatten ++ (lh ++ lpost.flatten)))) :=
        List.perm_middle
      have total := lift.trans step2
      exact total.symm.nodup (List.nodup_cons.2 ⟨hfnot, hnd2⟩)

end stack_pool

namespace stack_pool

variable {T : Type} [Inhabited T]

theorem inv_pop {s : stack_pool T} {h : Nat} {lh fl : List Nat}
    {pre post : List Nat} {lpre lpost : List (List Nat)}
    (hx : h ≠ 0)
    (hc : s.isChain h lh) (hf : s.isChain s.free_nodes fl)
    (hpre : List.Forall₂ s.isChain pre lpre)
    (hpost : List.Forall₂ s.isChain post lpost)
    (hnd : (fl ++ (lpre.flatten ++ (lh ++ lpost.flatten))).Nodup) :
    ∃ lx',
      lh = h :: lx' ∧
      (s.pop h).1.isChain (s.pop h).1.free_nodes (h :: fl) ∧
      (s.pop h).1.isChain (s.pop h).2 lx' ∧
      List.Forall₂ (s.pop h).1.isChain pre lpre ∧
      List.Forall₂ (s.pop h).1.isChain post lpost ∧
      ((h :: fl) ++ (lpre.flatten ++ (lx' ++ lpost.flatten))).Nodup := by
  obtain ⟨nfl, nrest, dfl⟩ := List.nodup_append.1 hnd
  obtain ⟨nA, nlhB, dA⟩ := List.nodup_append.1 nrest
  obtain ⟨nlh, nB, dlhB⟩ := List.nodup_append.1 nlhB
  have hsub : (fl ++ lh).Sublist
      (fl ++ (lpre.flatten ++ (lh ++ lpost.flatten))) :=
    (List.Sublist.refl fl).append
      (List.sublist_append_of_sublist_right (List.sublist_append_left lh _))
  have hndsub : (fl ++ lh).Nodup := hsub.nodup hnd
  obtain ⟨lx', hlh, htmp, hc2, hf2, hnd2, hlen2, hcap2, hframe2⟩ :=
    pop_chain s hc hx hf hndsub
  have hhlh : h ∈ lh := by rw [hlh]; exact List.mem_cons_self h lx'
  have fnext : ∀ a, a ≠ h → (s.pop h).1.next a = s.next a := by
    intro a ha
    show ((s.pop h).1.node a).next = (s.node a).next
    rw [hframe2 a ha]
  have hAne : ∀ a ∈ lpre.flatten, a ≠ h := by
    intro a ha he
    subst he
    exact dA ha (List.mem_append.2 (Or.inl hhlh))
  have hBne : ∀ a ∈ lpost.flatten, a ≠ h := by
    intro a ha he
    subst he
    exact dlhB hhlh ha
  have hpre' : List.Forall₂ (s.pop h).1.isChain pre lpre :=
    forall₂_chain_transport hpre (by omega) (fun a ha => fnext a (hAne a ha))
  have hpost' : List.Forall₂ (s.pop h).1.isChain post lpost :=
    forall₂_chain_transport hpost (by omega) (fun a ha => fnext a (hBne a ha))
  refine ⟨lx', hlh, hf2, hc2, hpre', hpost', ?_⟩
  rw [List.cons_append]
  refine List.nodup_cons.2 ⟨?_, ?_⟩
  · intro hmem
    rcases List.mem_append.1 hmem with hm | hm
    · exact dfl hm (List.mem_append.2 (Or.inr (List.mem_append.2 (Or.inl hhlh))))
    · rcases List.mem_append.1 hm with hm2 | hm2
      · exact hAne h hm2 rfl
      · rcases List.mem_append.1 hm2 with hm3 | hm3
        · have : lh.Nodup := nlh
          rw [hlh, List.nodup_cons] at this
          exact this.1 hm3
        · exact hBne h hm3 rfl
  · have hsub2 : (fl ++ (lpre.flatten ++ (lx' ++ lpost.flatten))).Sublist
        (fl ++ (lpre.flatten ++ (lh ++ lpost.flatten))) := by
      refine (List.Sublist.refl fl).append
        ((List.Sublist.refl lpre.flatten).append
          ((?_ : lx'.Sublist lh).append (List.Sublist.refl lpost.flatten)))
      rw [hlh]
      exact List.sublist_cons_self h lx'
    exact hsub2.nodup hnd

theorem inv_free {s : stack_pool T} {h : Nat} {lh fl : List Nat}
    {pre post : List Nat} {lpre lpost : List (List Nat)}
    (hc : s.isChain h lh) (hf : s.isChain s.free_nodes fl)
    (hpre : List.Forall₂ s.isChain pre lpre)
    (hpost : List.Forall₂ s.isChain post lpost)
    (hnd : (fl ++ (lpre.flatten ++ (lh ++ lpost.flatten))).Nodup) :
    (s.free_stack h).2 = 0 ∧
    (s.free_stack h).1.isChain
        (s.free_stack h).1.free_nodes (lh.reverse ++ fl) ∧
    List.Forall₂ (s.free_stack h).1.isChain pre lpre ∧
    List.Forall₂ (s.free_stack h).1.isChain post lpost ∧
    ((lh.reverse ++ fl) ++ (lpre.flatten ++ lpost.flatten)).Nodup := by
  obtain ⟨nfl, nrest, dfl⟩ := List.nodup_append.1 hnd
  obtain ⟨nA, nlhB, dA⟩ := List.nodup_append.1 nrest
  obtain ⟨nlh, nB, dlhB⟩ := List.nodup_append.1 nlhB
  have hsub : (fl ++ lh).Sublist
      (fl ++ (lpre.flatten ++ (lh ++ lpost.flatten))) :=
    (List.Sublist.refl fl).append
      (List.sublist_append_of_sublist_right (List.sublist_append_left lh _))
  have hndsub : (fl ++ lh).Nodup := hsub.nodup hnd
  obtain ⟨hret, hlenF, hcapF, hfchain, hframeF⟩ := free_stack_inv s hc hf hndsub
  have fnext : ∀ a, a ∉ lh → (s.free_stack h).1.next a = s.next a := by
    intro a ha
    show ((s.free_stack h).1.node a).next = (s.node a).next
    rw [hframeF a ha]
  have hAnl : ∀ a ∈ lpre.flatten, a ∉ lh := by
    intro a ha hm
    exact dA ha (List.mem_append.2 (Or.inl hm))
  have hBnl : ∀ a ∈ lpost.flatten, a ∉ lh := by
    intro a ha hm
    exact dlhB hm ha
  have hpre' : List.Forall₂ (s.free_stack h).1.isChain pre lpre :=
    forall₂_chain_transport hpre (by omega) (fun a ha => fnext a (hAnl a ha))
  have hpost' : List.Forall₂ (s.free_stack h).1.isChain post lpost :=
    forall₂_chain_transport hpost (by omega) (fun a ha => fnext a (hBnl a ha))
  refine ⟨hret, hfchain, hpre', hpost', ?_⟩
  have t1 : (lh.reverse ++ fl) ++ (lpre.flatten ++ lpost.flatten) =
      lh.reverse ++ (fl ++ (lpre.flatten ++ lpost.flatten)) := by
    rw [List.append_assoc]
  have p1 : (lh.reverse ++ (fl ++ (lpre.flatten ++ lpost.flatten))).Perm
      (lh ++ (fl ++ (lpre.flatten ++ lpost.flatten))) :=
    (List.reverse_perm lh).append_right _
  have p2 : (lh ++ (fl ++ (lpre.flatten ++ lpost.flatten))).Perm
      (fl ++ (lh ++ (lpre.flatten ++ lpost.flatten))) :=
    List.perm_append_comm_assoc lh fl (lpre.flatten ++ lpost.flatten)
  have p3 : (lh ++ (lpre.flatten ++ lpost.flatten)).Perm
      (lpre.flatten ++ (lh ++ lpost.flatten)) :=
    List.perm_append_comm_assoc lh lpre.flatten lpost.flatten
  have p4 : (fl ++ (lh ++ (lpre.flatten ++ lpost.flatten))).Perm
      (fl ++ (lpre.flatten ++ (lh ++ lpost.flatten))) :=
    p3.append_left fl
  have total : ((lh.reverse ++ fl) ++ (lpre.flatten ++ lpost.flatten)).Perm
      (fl ++ (lpre.flatten ++ (lh ++ lpost.flatten))) := by
    rw [t1]
    exact (p1.trans p2).trans p4
  exact total.symm.nodup hnd

end stack_pool

namespace stack_pool

variable {T : Type} [Inhabited T]

/-- The states reachable from an empty pool by `new_stack`, `push`, `pop`,
`free_stack` and `reserve`, applied to well-formed handles: `hs` tracks the
current head of every live stack, and each operation replaces the handle it
acted on by the handle the operation returned (`pop` is never applied to the
sentinel, which the reference design leaves undefined). -/
inductive Reach : stack_pool T → List Nat → Prop
  | init : Reach (stack_pool.mk [] 0 0) []
  | newStack (s : stack_pool T) (hs : List Nat) :
      Reach s hs → Reach s (s.new_stack :: hs)
  | pushOp (s : stack_pool T) (pre post : List Nat) (h : Nat) (v : T) :
      Reach s (pre ++ h :: post) →
      Reach (s.push v h).1 (pre ++ (s.push v h).2 :: post)
  | popOp (s : stack_pool T) (pre post : List Nat) (h : Nat) :
      h ≠ 0 → Reach s (pre ++ h :: post) →
      Reach (s.pop h).1 (pre ++ (s.pop h).2 :: post)
  | freeOp (s : stack_pool T) (pre post : List Nat) (h : Nat) :
      Reach s (pre ++ h :: post) →
      Reach (s.free_stack h).1 (pre ++ (s.free_stack h).2 :: post)
  | reserveOp (s : stack_pool T) (hs : List Nat) (n : Nat) :
      Reach s hs → Reach (s.reserve n) hs

theorem reach_poolInv {s : stack_pool T} {hs : List Nat}
    (h : Reach s hs) : s.PoolInv hs := by
  induction h with
  | init =>
      exact ⟨[], [], .nil, .nil, by simp⟩
  | newStack s hs _ ih =>
      obtain ⟨fl, ls, hf, hall, hnd⟩ := ih
      exact ⟨fl, [] :: ls, hf, .cons .nil hall, by simpa using hnd⟩
  | pushOp s pre post h v _ ih =>
      obtain ⟨fl, ls, hf, hall, hnd⟩ := ih
      obtain ⟨lpre, lh, lpost, rfl, hpre, hch, hpost⟩ :=
        forall₂_append_cons_inv hall
      have hnd' : (fl ++ (lpre.flatten ++ (lh ++ lpost.flatten))).Nodup := by
        simpa [List.flatten_append, List.flatten_cons, List.append_assoc]
          using hnd
      obtain ⟨fl', hfree', hchain', hpre', hpost', hnd2⟩ :=
        inv_push v hch hf hpre hpost hnd'
      refine ⟨fl', lpre ++ ((s.push v h).2 :: lh) :: lpost, hfree', ?_, ?_⟩
      · exact forall₂_append_both hpre' (.cons hchain' hpost')
      · simpa [List.flatten_append, List.flatten_cons, List.append_assoc]
          using hnd2
  | popOp s pre post h hx _ ih =>
      obtain ⟨fl, ls, hf, hall, hnd⟩ := ih
      obtain ⟨lpre, lh, lpost, rfl, hpre, hch, hpost⟩ :=
        forall₂_append_cons_inv hall
      have hnd' : (fl ++ (lpre.flatten ++ (lh ++ lpost.flatten))).Nodup := by
        simpa [List.flatten_append, List.flatten_cons, List.append_assoc]
          using hnd
      obtain ⟨lx', hlh, hf2, hc2, hpre', hpost', hnd2⟩ :=
        inv_pop hx hch hf hpre hpost hnd'
      refine ⟨h :: fl, lpre ++ lx' :: lpost, hf2, ?_, ?_⟩
      · exact forall₂_append_both hpre' (.cons hc2 hpost')
      · simpa [List.flatten_append, List.flatten_cons, List.append_assoc]
          using hnd2
  | freeOp s pre post h _ ih =>
      obtain ⟨fl, ls, hf, hall, hnd⟩ := ih
      obtain ⟨lpre, lh, lpost, rfl, hpre, hch, hpost⟩ :=
        forall₂_append_cons_inv hall
      have hnd' : (fl ++ (lpre.flatten ++ (lh ++ lpost.flatten))).Nodup := by
        simpa [List.flatten_append, List.flatten_cons, List.append_assoc]
          using hnd
      obtain ⟨hret, hfchain, hpre', hpost', hnd2⟩ :=
        inv_free hch hf hpre hpost hnd'
      have hchain0 : (s.free_stack h).1.isChain (s.free_stack h).2 [] := by
        rw [hret]; exact .nil
      refine ⟨lh.reverse ++ fl, lpre ++ [] :: lpost, hfchain, ?_, ?_⟩
      · exact forall₂_append_both hpre' (.cons hchain0 hpost')
      · simpa [List.flatten_append, List.flatten_cons, List.append_assoc]
          using hnd2
  | reserveOp s hs n _ ih =>
      obtain ⟨fl, ls, hf, hall, hnd⟩ := ih
      refine ⟨fl, ls, ?_, ?_, hnd⟩
      · exact isChain_mono hf (le_refl _) (fun a _ => rfl)
      · exact forall₂_chain_transport hall (le_refl _) (fun a _ => rfl)

end stack_pool

/-- The error taxonomy of the spec's checked model: `emptyStack` for a pop
on the sentinel, `invalidIndex` for an out-of-range node access.  The C++
code raises neither; its only failure mode is the unchecked out-of-range
vector access itself, surfaced here as `invalidIndex`. -/
inductive PoolError where
  | emptyStack
  | invalidIndex
  deriving Repr, DecidableEq

namespace stack_pool

variable {T : Type} [Inhabited T]

/-- `pool[x-1]` as a checked access: defined exactly when the slot the C++
code reads exists.  For `x = 0` the `size_t` subtraction wraps around, so
the slot is out of range and the access is undefined behaviour — the
checked model reports `invalidIndex`, not a checked `emptyStack`. -/
def nodeE (s : stack_pool T) (x : Nat) : Except PoolError (node_t T) :=
  if x ≠ 0 ∧ x - 1 < s.pool.length then Except.ok (s.node x)
  else Except.error PoolError.invalidIndex

/-- `pop` in the checked model: read `next(x)`, rethread the node onto the
free list.  Fails (as the C++ code's access is undefined) whenever the node
slot does not exist — in particular for the sentinel `x = 0`. -/
def popE (s : stack_pool T) (x : Nat) : Except PoolError (stack_pool T × Nat) :=
  match s.nodeE x with
  | Except.error e => Except.error e
  | Except.ok nd =>
      let s1 := s.setNext x s.free_nodes
      Except.ok ({ s1 with free_nodes := x }, nd.next)

theorem popE_zero (s : stack_pool T) :
    s.popE 0 = Except.error PoolError.invalidIndex := by
  simp [popE, nodeE]

theorem popE_ok_eq_pop (s : stack_pool T) {x : Nat} {p : stack_pool T × Nat}
    (h : s.popE x = Except.ok p) : s.pop x = p := by
  unfold popE at h
  cases hne : s.nodeE x with
  | error e => rw [hne] at h; cases h
  | ok nd =>
      rw [hne] at h
      simp only [Except.ok.injEq] at h
      have hnd : nd = s.node x := by
        unfold nodeE at hne
        split at hne
        · exact (Except.ok.inj hne).symm
        · cases hne
      rw [← h, hnd]
      rfl

/-! ## Capacity bookkeeping -/

theorem popSeq_state (s : stack_pool T) (xs : List Nat) :
    (s.popSeq xs).cap = s.cap ∧ (s.popSeq xs).pool.length = s.pool.length := by
  induction xs generalizing s with
  | nil => exact ⟨rfl, rfl⟩
  | cons x xs ih =>
      have hstep : s.popSeq (x :: xs) = (s.pop x).1.popSeq xs := rfl
      rw [hstep]
      obtain ⟨h1, h2⟩ := ih (s.pop x).1
      exact ⟨by rw [h1, pop_cap], by rw [h2, pop_pool_length]⟩

theorem pushFold_reuse (ps : List (T × Nat)) :
    ∀ (s : stack_pool T) (fl : List Nat),
    s.isChain s.free_nodes fl → ps.length ≤ fl.length →
    (s.pushFold ps).cap = s.cap ∧
    (s.pushFold ps).pool.length = s.pool.length := by
  induction ps with
  | nil => exact fun s fl _ _ => ⟨rfl, rfl⟩
  | cons p ps ih =>
      intro s fl hf hlen
      have hne : s.free_nodes ≠ 0 := by
        intro h0
        have := isChain_nil_of_eq hf h0
        subst this
        simp at hlen
      obtain ⟨fl'', hfleq, hfle, hfl''⟩ := isChain_cons_inv hf hne
      obtain ⟨_, hfree, hlen1, hcap1, _, hframe⟩ :=
        push_reuse_spec s p.1 p.2 hne hfle
      have hnd : fl.Nodup := isChain_nodup hf
      have hfnot : s.free_nodes ∉ fl'' := by
        rw [hfleq] at hnd
        exact (List.nodup_cons.1 hnd).1
      have hf' : (s.push p.1 p.2).1.isChain
          (s.push p.1 p.2).1.free_nodes fl'' := by
        rw [hfree]
        refine isChain_mono hfl'' (by omega) fun a ha => ?_
        show ((s.push p.1 p.2).1.node a).next = (s.node a).next
        rw [hframe a (fun he => hfnot (he ▸ ha))]
      have hlen' : ps.length ≤ fl''.length := by
        rw [hfleq] at hlen
        simp at hlen
        omega
      have hstep : s.pushFold (p :: ps) = (s.push p.1 p.2).1.pushFold ps := rfl
      rw [hstep]
      obtain ⟨h1, h2⟩ := ih (s.push p.1 p.2).1 fl'' hf' hlen'
      exact ⟨by rw [h1, hcap1], by rw [h2, hlen1]⟩

end stack_pool

/-- One pool operation, for stating capacity monotonicity over arbitrary
operation sequences. -/
inductive Op (T : Type) where
  | newStackOp
  | pushOp (v : T) (h : Nat)
  | popOp (h : Nat)
  | freeStackOp (h : Nat)
  | reserveOp (n : Nat)

namespace stack_pool

variable {T : Type} [Inhabited T]

/-- Execute one operation, keeping only the pool state (`new_stack` has no
side effect on the pool). -/
def exec (s : stack_pool T) : Op T → stack_pool T
  | Op.newStackOp => s
  | Op.pushOp v h => (s.push v h).1
  | Op.popOp h => (s.pop h).1
  | Op.freeStackOp h => (s.free_stack h).1
  | Op.reserveOp n => s.reserve n

/-- Execute a sequence of operations from left to right. -/
def execList (s : stack_pool T) : List (Op T) → stack_pool T
  | [] => s
  | op :: ops => (s.exec op).execList ops

theorem cap_push_mono (s : stack_pool T) (v : T) (h : Nat) :
    s.cap ≤ (s.push v h).1.cap := by
  by_cases h0 : s.free_nodes = 0
  · rw [push_eq_grow s v h h0]
    dsimp only
    split
    · exact le_refl _
    · omega
  · obtain ⟨_, _, _, hcap, _⟩ := push_reuse_frame s v h h0
    omega

theorem cap_free_stack_fuel (fuel : Nat) :
    ∀ (s : stack_pool T) (x : Nat),
    (free_stack_fuel fuel s x).1.cap = s.cap := by
  induction fuel with
  | zero => exact fun s x => rfl
  | succ fuel ih =>
      intro s x
      by_cases hx : x = 0
      · simp [free_stack_fuel, hx]
      · have hstep : free_stack_fuel (fuel + 1) s x =
            free_stack_fuel fuel (s.pop x).1 (s.pop x).2 := by
          simp [free_stack_fuel, hx]
        rw [hstep, ih, pop_cap]

theorem cap_exec_mono (s : stack_pool T) (op : Op T) :
    s.cap ≤ (s.exec op).cap := by
  cases op with
  | newStackOp => exact le_refl _
  | pushOp v h => exact cap_push_mono s v h
  | popOp h => rw [exec, pop_cap]
  | freeStackOp h =>
      show s.cap ≤ (free_stack_fuel (s.pool.length + 1) s h).1.cap
      rw [cap_free_stack_fuel]
  | reserveOp n =>
      show s.cap ≤ max s.cap n
      exact le_max_left _ _

theorem cap_execList_mono (s : stack_pool T) (ops : List (Op T)) :
    s.cap ≤ (s.execList ops).cap := by
  induction ops generalizing s with
  | nil => exact le_refl _
  | cons op ops ih =>
      have hstep : s.execList (op :: ops) = (s.exec op).execList ops := rfl
      rw [hstep]
      exact le_trans (cap_exec_mono s op) (ih (s.exec op))

end stack_pool

/-- An empty pool over `Nat` values (default-constructed `stack_pool`). -/
def emptyPool : stack_pool Nat := stack_pool.mk [] 0 0

/-- A pool whose single node is the whole free list. -/
def onePool : stack_pool Nat := stack_pool.mk [⟨5, 0⟩] 1 1

/-- A pool holding the live stack `2 → 1 → 0` and an empty free list. -/
def twoPool : stack_pool Nat := stack_pool.mk [⟨1, 0⟩, ⟨2, 1⟩] 0 2

namespace stack_pool

variable {T : Type} [Inhabited T]

/-- C1: pushing `v1, …, vk` onto an initially empty stack handle
(`new_stack() = 0`) of a pool whose free list is well formed, then iterating
(`value` / `next`, as `MyIterator`'s `operator*` and `operator++` do) from
the head returned by the last push, yields exactly `vk, …, v1` and reaches
the sentinel `0` after `k` steps. -/
theorem C1_lifo_law (s : stack_pool T) (fl : List Nat) (vs : List T)
    (hf : s.isChain s.free_nodes fl) :
    (s.pushSeq vs s.new_stack).1.iterVals vs.length
        (s.pushSeq vs s.new_stack).2 = vs.reverse ∧
    (s.pushSeq vs s.new_stack).1.advance vs.length
        (s.pushSeq vs s.new_stack).2 = 0 := by
  have h0 : s.isChain s.new_stack [] := .nil
  have hnd : (fl ++ ([] : List Nat)).Nodup := by
    simpa using isChain_nodup hf
  obtain ⟨ixs, fl', hc, hlen, hmap, _, _⟩ :=
    pushSeq_chain vs s s.new_stack [] fl h0 hf hnd
  have hlen2 : (ixs ++ ([] : List Nat)).length = vs.length := by
    simp [hlen]
  obtain ⟨hiter1, hiter2⟩ :=
    iterVals_of_chain hc vs.length (le_of_eq hlen2)
  constructor
  · rw [hiter1]
    simpa using hmap
  · rw [← hlen2]
    exact hiter2

/-- C2: `pop(push(v, h)) = h` — popping right after a push returns the
original head index, on both the growth and the reuse path. -/
theorem C2_pop_push_duality (s : stack_pool T) (v : T) (h : Nat)
    (hle : s.free_nodes ≤ s.pool.length) :
    ((s.push v h).1.pop (s.push v h).2).2 = h := by
  by_cases h0 : s.free_nodes = 0
  · obtain ⟨hr, _, _, _, hnode, _, _⟩ := push_grow_spec s v h h0
    show (s.push v h).1.next (s.push v h).2 = h
    rw [hr]
    show ((s.push v h).1.node (s.pool.length + 1)).next = h
    rw [hnode]
  · obtain ⟨hr, _, _, _, hnode, _⟩ := push_reuse_spec s v h h0 hle
    show (s.push v h).1.next (s.push v h).2 = h
    rw [hr]
    show ((s.push v h).1.node s.free_nodes).next = h
    rw [hnode]

/-- C3: `push(val, head)` appends a fresh node `{val, head}` at the end of
the backing storage and returns the new storage length when the free list is
empty; otherwise it returns the recycled free-list head, moves the free-list
head to that node's `next`, and overwrites the node with value `val` and
next `head`. -/
theorem C3_push_algorithm (s : stack_pool T) (v : T) (h : Nat) :
    (s.free_nodes = 0 →
      (s.push v h).1.pool = s.pool ++ [⟨v, h⟩] ∧
      (s.push v h).2 = s.pool.length + 1 ∧
      (s.push v h).2 = (s.push v h).1.pool.length) ∧
    (s.free_nodes ≠ 0 →
      (s.push v h).2 = s.free_nodes ∧
      (s.push v h).1.free_nodes = s.next s.free_nodes ∧
      (s.free_nodes ≤ s.pool.length →
        (s.push v h).1.value s.free_nodes = v ∧
        (s.push v h).1.next s.free_nodes = h)) := by
  constructor
  · intro h0
    obtain ⟨hr, hpool, _, hlen, _, _, _⟩ := push_grow_spec s v h h0
    exact ⟨hpool, hr, by rw [hr, hlen]⟩
  · intro hne
    obtain ⟨hr, hfree, _, _, hframe⟩ := push_reuse_frame s v h hne
    refine ⟨hr, hfree, ?_⟩
    intro hle
    obtain ⟨_, _, _, _, hnode, _⟩ := push_reuse_spec s v h hne hle
    constructor
    · show ((s.push v h).1.node s.free_nodes).value = v
      rw [hnode]
    · show ((s.push v h).1.node s.free_nodes).next = h
      rw [hnode]

/-- C4: in every pool state reachable from the empty pool by `new_stack`,
`push`, `pop`, `free_stack` and `reserve` on well-formed handles, the free
list and every live stack are acyclic, in-range chains terminating at the
sentinel `0`, and no node index occurs in two of these lists (nor twice in
one): `PoolInv` holds. -/
theorem C4_reachable_invariant (s : stack_pool T) (hs : List Nat)
    (h : Reach s hs) : s.PoolInv hs :=
  reach_poolInv h

/-- C5: `free_stack(h)` on a well-formed stack of length `n` returns `0`,
leaves the pool in exactly the state produced by calling `pop` on the
successive heads `n` times, and afterwards `empty` of the returned handle is
`true`. -/
theorem C5_free_stack_equiv (s : stack_pool T) (x : Nat) (l : List Nat)
    (hc : s.isChain x l) :
    s.free_stack x = ((s.popTimes l.length x).1, 0) ∧
    (s.free_stack x).2 = 0 ∧
    (s.free_stack x).1.empty (s.free_stack x).2 = true := by
  have heq := free_stack_eq_popTimes s hc
  refine ⟨heq, by rw [heq], by rw [heq]; rfl⟩

/-- C6 (amended): calling `pop` on the sentinel handle `0` performs an
out-of-range node access — undefined behaviour in the reference design,
`invalidIndex` in the checked model `popE` — and never succeeds, so no
modified pool state is produced; but it is not a checked `EmptyStack`
failure, since the code never tests for emptiness. -/
theorem C6_pop_sentinel (s : stack_pool T) :
    s.popE 0 = Except.error PoolError.invalidIndex ∧
    ∀ p : stack_pool T × Nat, s.popE 0 ≠ Except.ok p := by
  refine ⟨popE_zero s, ?_⟩
  intro p hp
  rw [popE_zero] at hp
  cases hp

/-- C7: iterator equality compares only the current indices — also across
different pools — `operator!=` is its Boolean negation, and any two
exhausted iterators (index `0`) compare equal. -/
theorem C7_iterator_equality {U : Type} (it1 it2 : MyIterator U) :
    (MyIterator.eqOp it1 it2 = true ↔ it1.StackIndex = it2.StackIndex) ∧
    MyIterator.neOp it1 it2 = !MyIterator.eqOp it1 it2 ∧
    (∀ p q : stack_pool U, MyIterator.eqOp ⟨p, 0⟩ ⟨q, 0⟩ = true) := by
  refine ⟨?_, ?_, ?_⟩
  · simp [MyIterator.eqOp]
  · rfl
  · intro p q
    rfl

/-- C8: popping `m` nodes and then pushing `m` values, where `m` does not
exceed the length of the (well-formed) free list when the pushes begin,
leaves `capacity()` and the storage length unchanged: every push takes the
reuse path and no reallocation happens. -/
theorem C8_recycling (s0 : stack_pool T) (xs : List Nat)
    (ps : List (T × Nat)) (fl : List Nat)
    (hm : xs.length = ps.length)
    (hf : (s0.popSeq xs).isChain (s0.popSeq xs).free_nodes fl)
    (hlen : ps.length ≤ fl.length) :
    ((s0.popSeq xs).pushFold ps).capacity = s0.capacity ∧
    ((s0.popSeq xs).pushFold ps).pool.length = s0.pool.length := by
  obtain ⟨hc1, hc2⟩ := pushFold_reuse ps (s0.popSeq xs) fl hf hlen
  obtain ⟨hp1, hp2⟩ := popSeq_state s0 xs
  constructor
  · show ((s0.popSeq xs).pushFold ps).cap = s0.cap
    rw [hc1, hp1]
  · rw [hc2, hp2]

/-- C9: `capacity()` is non-decreasing along every sequence of operations
(`new_stack`, `push`, `pop`, `free_stack`, `reserve`): none of them, not
even `reserve` with a small argument, shrinks the backing storage. -/
theorem C9_capacity_monotone (s : stack_pool T) (ops : List (Op T)) :
    s.capacity ≤ (s.execList ops).capacity :=
  cap_execList_mono s ops

/-- C10: on the reuse path (`free_nodes ≠ 0`), `push` changes only the
recycled node's fields and the free-list head: it returns the old free-list
head, the new free-list head is that node's old `next`, every other node's
`value` and `next` are unchanged, and storage length and capacity are
unchanged. -/
theorem C10_reuse_frame (s : stack_pool T) (v : T) (h : Nat)
    (hne : s.free_nodes ≠ 0) :
    (s.push v h).2 = s.free_nodes ∧
    (s.push v h).1.free_nodes = s.next s.free_nodes ∧
    (s.push v h).1.pool.length = s.pool.length ∧
    (s.push v h).1.capacity = s.capacity ∧
    (∀ a, a ≠ s.free_nodes →
      (s.push v h).1.value a = s.value a ∧
      (s.push v h).1.next a = s.next a) := by
  obtain ⟨h1, h2, h3, h4, h5⟩ := push_reuse_frame s v h hne
  refine ⟨h1, h2, h3, h4, ?_⟩
  intro a ha
  constructor
  · show ((s.push v h).1.node a).value = (s.node a).value
    rw [h5 a ha]
  · show ((s.push v h).1.node a).next = (s.node a).next
    rw [h5 a ha]

end stack_pool

/-- C6, the original claim refuted at the concrete input `pop(0)` on a
one-node pool: the failure is the unchecked out-of-range access
(`invalidIndex` in the checked model), not an `EmptyStack` error. -/
theorem C6_counterexample :
    ¬ (onePool.popE 0 = Except.error PoolError.emptyStack) := by
  rw [stack_pool.popE_zero]
  intro h
  exact PoolError.noConfusion (Except.error.inj h)

/-- C1 at a concrete input: pushing `1` then `2` onto a new stack of the
empty pool and iterating yields `[2, 1]` and ends at the sentinel. -/
theorem C1_witness :
    (emptyPool.pushSeq [1, 2] emptyPool.new_stack).1.iterVals 2
        (emptyPool.pushSeq [1, 2] emptyPool.new_stack).2 = [2, 1] ∧
    (emptyPool.pushSeq [1, 2] emptyPool.new_stack).1.advance 2
        (emptyPool.pushSeq [1, 2] emptyPool.new_stack).2 = 0 := by
  have h := stack_pool.C1_lifo_law emptyPool [] [1, 2] stack_pool.isChain.nil
  simpa using h

/-- C2 at a concrete input: push onto the empty stack of a pool with one
free node, then pop; the original head `0` comes back. -/
theorem C2_witness :
    ((onePool.push 7 0).1.pop (onePool.push 7 0).2).2 = 0 :=
  stack_pool.C2_pop_push_duality onePool 7 0 (by decide)

/-- C4 at a concrete input: the invariant holds after `new_stack` and one
`push` on the empty pool. -/
theorem C4_witness :
    ((emptyPool.push 5 0).1).PoolInv [(emptyPool.push 5 0).2] :=
  stack_pool.C4_reachable_invariant _ _
    (stack_pool.Reach.pushOp emptyPool [] [] 0 5
      (stack_pool.Reach.newStack emptyPool [] stack_pool.Reach.init))

/-- C5 at a concrete input: freeing the two-node stack `2 → 1 → 0` equals
two pops and returns the sentinel. -/
theorem C5_witness :
    twoPool.free_stack 2 = ((twoPool.popTimes 2 2).1, 0) ∧
    (twoPool.free_stack 2).2 = 0 ∧
    (twoPool.free_stack 2).1.empty (twoPool.free_stack 2).2 = true := by
  have hc : twoPool.isChain 2 [2, 1] := by
    refine stack_pool.isChain.cons 2 [1] (by decide) (by decide) ?_
    have h2 : twoPool.next 2 = 1 := by decide
    rw [h2]
    refine stack_pool.isChain.cons 1 [] (by decide) (by decide) ?_
    have h1 : twoPool.next 1 = 0 := by decide
    rw [h1]
    exact stack_pool.isChain.nil
  have h := stack_pool.C5_free_stack_equiv twoPool 2 [2, 1] hc
  simpa using h

/-- C8 at a concrete input: popping the head of the two-node stack and then
pushing one value back reuses the freed node; capacity and storage length
are unchanged. -/
theorem C8_witness :
    ((twoPool.popSeq [2]).pushFold [(9, 1)]).capacity = twoPool.capacity ∧
    ((twoPool.popSeq [2]).pushFold [(9, 1)]).pool.length =
      twoPool.pool.length := by
  have hfree : (twoPool.popSeq [2]).free_nodes = 2 := by decide
  have hf : (twoPool.popSeq [2]).isChain (twoPool.popSeq [2]).free_nodes [2] := by
    rw [hfree]
    refine stack_pool.isChain.cons 2 [] (by decide) (by decide) ?_
    have hn : (twoPool.popSeq [2]).next 2 = 0 := by decide
    rw [hn]
    exact stack_pool.isChain.nil
  exact stack_pool.C8_recycling twoPool [2] [(9, 1)] [2] (by decide) hf (by decide)

/-- C10 at a concrete input: a reuse push on the one-free-node pool recycles
node `1` and touches nothing else. -/
theorem C10_witness :
    (onePool.push 7 3).2 = onePool.free_nodes ∧
    (onePool.push 7 3).1.free_nodes = onePool.next onePool.free_nodes ∧
    (onePool.push 7 3).1.pool.length = onePool.pool.length ∧
    (onePool.push 7 3).1.capacity = onePool.capacity ∧
    (∀ a, a ≠ onePool.free_nodes →
      (onePool.push 7 3).1.value a = onePool.value a ∧
      (onePool.push 7 3).1.next a = onePool.next a) :=
  stack_pool.C10_reuse_frame onePool 7 3 (by decide)
